import Mathlib

/-!
# avahi `libavahi-core/util.c`: domain-name comparison and time arithmetic

A shallow embedding of the pure parts of `util.c`, followed by theorems about
them.

## Conventions

* A `gchar` is the integer value of a C `char` object, so that the C expression
  `*a < *b` is plain integer comparison whatever the signedness of `char` on
  the platform.  `'\\'` is `92`, `'.'` is `46` and the terminator is `0`.
* A `const gchar *` walking a NUL-terminated string is the list of the bytes
  lying between the pointer and the terminator.  `*p` is the head of that list
  (`0` on the empty list, where the pointer rests on the terminator) and `p+1`
  is its tail.  A pointer resting on the terminator cannot be advanced and
  dereferenced again: that read is outside the string.
* `glong` is 64 bits wide, `gint` and `guint` are 32 bits wide (LP64); C
  arithmetic in these types is taken modulo `2^64` respectively `2^32`.
-/

namespace Avahi

/-- The value of a C `char`. -/
abbrev gchar := Int

/-- What a run of the name scan can end in besides a returned value. -/
inductive Fault where
  /-- A byte behind the terminator of one of the names is read. -/
  | outOfBounds
  /-- The iteration budget given to the loop is used up. -/
  | outOfFuel
  deriving DecidableEq, Repr

deriving instance DecidableEq for Except

/-- The value of `*p`. -/
def peek : List gchar → gchar
  | [] => 0
  | c :: _ => c

/-- The loop `for (;;) { ... }` of `avahi_domain_cmp`, run for at most `fuel`
iterations on the pointers `a` and `b`. -/
def avahi_domain_cmp_loop : Nat → List gchar → List gchar → Except Fault Int
  | 0, _, _ => .error .outOfFuel
  | fuel + 1, a, b =>
    -- if ((escaped_a = *a == '\\')) a ++;
    let escaped_a : Bool := decide (peek a = 92)
    let a := if escaped_a then a.tail else a
    -- if ((escaped_b = *b == '\\')) b++;
    let escaped_b : Bool := decide (peek b = 92)
    let b := if escaped_b then b.tail else b
    -- if (*a == 0 && *b == 0) return 0;
    if peek a = 0 ∧ peek b = 0 then .ok 0
    -- if (*a == 0 && !escaped_b && *b == '.' && *(b+1) == 0) return 0;
    else if peek a = 0 ∧ escaped_b = false ∧ peek b = 46 ∧ peek b.tail = 0 then .ok 0
    -- if (!escaped_a && *a == '.' && *(a+1) == 0 && *b == 0) return 0;
    else if escaped_a = false ∧ peek a = 46 ∧ peek a.tail = 0 ∧ peek b = 0 then .ok 0
    -- if (escaped_a == escaped_b && *a != *b) return *a < *b ? -1 : 1;
    else if escaped_a = escaped_b ∧ peek a ≠ peek b then
      .ok (if peek a < peek b then -1 else 1)
    else
      -- a++; b++; and the reads `*a`, `*b` that open the next iteration
      match a, b with
      | _ :: a', _ :: b' => avahi_domain_cmp_loop fuel a' b'
      | _, _ => .error .outOfBounds

/-- The function `avahi_domain_cmp` on two names given by their bytes.  Every
iteration that does not return moves `a` forward, so `a.length + 1` iterations
are all the loop can make. -/
def avahi_domain_cmp (a b : List gchar) : Except Fault Int :=
  avahi_domain_cmp_loop (a.length + 1) a b

/-- The function `avahi_domain_equal`: `avahi_domain_cmp(a, b) == 0`. -/
def avahi_domain_equal (a b : List gchar) : Except Fault Bool :=
  (avahi_domain_cmp a b).map (fun r => decide (r = 0))

/-- The function `avahi_normalize_name`. -/
def avahi_normalize_name (s : List gchar) : List gchar :=
  let l := s.length
  if l = 0 then [46]
  else if s.getD (l - 1) 0 = 46 then s
  else s ++ [46]

/-- The bytes of an ASCII string literal. -/
def lit (s : String) : List gchar := s.toList.map (fun c => (c.toNat : Int))

/-- The byte stored in memory for a `char` of value `c`. -/
def byte (c : gchar) : Nat := (c % 256).toNat

/-- The buffer `t` after `strncpy(t, p, n)`: the first `n` bytes of `p`, padded
with NUL bytes up to `n` bytes when `p` is shorter. -/
def strncpy (p : List gchar) (n : Nat) : List gchar :=
  p.take n ++ List.replicate (n - p.length) 0

/-- Modelled from the spec: GLib's `g_int_hash`, which is not part of this
repository; it reads one 32-bit integer from the start of the buffer it is
handed (here from the four bytes at offsets 0 to 3, least significant first)
and returns it as a `guint`. -/
def g_int_hash (t : List gchar) : Nat :=
  byte (t.getD 0 0) + 256 * byte (t.getD 1 0) + 65536 * byte (t.getD 2 0)
    + 16777216 * byte (t.getD 3 0)

/-- The function `avahi_domain_hash`: `char t[256]; strncpy(t, p, sizeof(t)-1);
t[sizeof(t)-1] = 0; return g_int_hash(t);`. -/
def avahi_domain_hash (p : List gchar) : Nat :=
  let t := strncpy p 255 ++ [0]
  g_int_hash t

/-- The value of an integer after conversion to the 64-bit signed `glong`. -/
def to_glong (x : Int) : Int := (x + 9223372036854775808) % 18446744073709551616 - 9223372036854775808

/-- The value of an integer after conversion to the 32-bit signed `gint`. -/
def to_gint (x : Int) : Int := (x + 2147483648) % 4294967296 - 2147483648

/-- The value of an integer after conversion to the 32-bit unsigned `guint`. -/
def to_guint (x : Int) : Int := x % 4294967296

/-- GLib's `GTimeVal`: `glong tv_sec; glong tv_usec;`. -/
structure GTimeVal where
  tv_sec : Int
  tv_usec : Int
  deriving DecidableEq, Repr

/-- An instant whose microseconds lie in `[0, 1000000)`. -/
def GTimeVal.wellFormed (t : GTimeVal) : Prop := 0 ≤ t.tv_usec ∧ t.tv_usec < 1000000

instance (t : GTimeVal) : Decidable t.wellFormed := by
  unfold GTimeVal.wellFormed; exact inferInstance

/-- The microseconds between the epoch and the instant `t`. -/
def GTimeVal.usecs (t : GTimeVal) : Int := t.tv_sec * 1000000 + t.tv_usec

/-- The function `avahi_timeval_compare`. -/
def avahi_timeval_compare (a b : GTimeVal) : Int :=
  if a.tv_sec < b.tv_sec then -1
  else if a.tv_sec > b.tv_sec then 1
  else if a.tv_usec < b.tv_usec then -1
  else if a.tv_usec > b.tv_usec then 1
  else 0

/-- The function `avahi_timeval_diff`, with at most `fuel` nested calls; the
arithmetic of the `return` statement is done in `glong`. -/
def avahi_timeval_diff_fuel : Nat → GTimeVal → GTimeVal → Option Int
  | 0, _, _ => none
  | fuel + 1, a, b =>
    if avahi_timeval_compare a b < 0 then
      avahi_timeval_diff_fuel fuel b a
    else
      some (to_glong (to_glong (to_glong (to_glong (a.tv_sec - b.tv_sec) * 1000000)
        + a.tv_usec) - b.tv_usec))

/-- The function `avahi_timeval_diff`: the swapped call never calls again, so
two nested calls are all there can be. -/
def avahi_timeval_diff (a b : GTimeVal) : Option Int :=
  avahi_timeval_diff_fuel 2 a b

/-- The function `avahi_age`, the reading `now` of `g_get_current_time` being an
input: the `glong` that `avahi_timeval_diff` returns is converted to the
result type `gint`. -/
def avahi_age (now a : GTimeVal) : Option Int :=
  (avahi_timeval_diff now a).map to_gint

/-- Modelled from the spec: GLib's `g_time_val_add`, which is not part of this
repository; exact addition of `microseconds` to the instant, with carry into
the seconds. -/
def g_time_val_add (t : GTimeVal) (microseconds : Int) : GTimeVal :=
  let total := t.tv_sec * 1000000 + t.tv_usec + microseconds
  { tv_sec := total / 1000000, tv_usec := total % 1000000 }

/-- The function `avahi_elapse_time`, the reading `now` of `g_get_current_time`
and the value `r` drawn by `g_random_int_range(0, jitter)` being inputs.
`msec*1000` is a `guint` product and `r * 1000` a `gint32` product; both are
then passed as `glong`. -/
def avahi_elapse_time (now : GTimeVal) (r : Int) (msec jitter : Nat) : GTimeVal :=
  let tv := now
  let tv := if msec ≠ 0 then g_time_val_add tv (to_guint (msec * 1000)) else tv
  let tv := if jitter ≠ 0 then g_time_val_add tv (to_gint (r * 1000)) else tv
  tv


/-! ## Auxiliary notions used in the statements and proofs -/

/-- What one iteration decides from the two escape flags, the two current
bytes and the two bytes after them: the value to return, or `none` to go on. -/
def verdict (ea eb : Bool) (ca cb na nb : Int) : Option Int :=
  if ca = 0 ∧ cb = 0 then some 0
  else if ca = 0 ∧ eb = false ∧ cb = 46 ∧ nb = 0 then some 0
  else if ea = false ∧ ca = 46 ∧ na = 0 ∧ cb = 0 then some 0
  else if ea = eb ∧ ca ≠ cb then some (if ca < cb then -1 else 1)
  else none

/-- The order of two byte strings read up to and including their terminators:
the sign of the first position where they differ, `0` when there is none. -/
def lexSign : List Int → List Int → Int
  | [], [] => 0
  | [], y :: _ => if 0 < y then -1 else 1
  | x :: _, [] => if x < 0 then -1 else 1
  | x :: xs, y :: ys => if x = y then lexSign xs ys else if x < y then -1 else 1

/-- A plain name: no NUL byte, no backslash, and no dot as the last byte. -/
def plain (a : List gchar) : Prop :=
  (∀ c ∈ a, c ≠ 0 ∧ c ≠ 92) ∧ a.getLast? ≠ some 46

instance (a : List gchar) : Decidable (plain a) := by
  unfold plain; exact inferInstance

/-- A name without escapes: no NUL byte and no backslash. -/
def unescaped (a : List gchar) : Prop := ∀ c ∈ a, c ≠ 0 ∧ c ≠ 92

instance (a : List gchar) : Decidable (unescaped a) := by
  unfold unescaped; exact inferInstance

/-- The sign of the lexicographic byte-wise comparison of two byte strings, as
the specification words it: the first position where the strings differ
decides, and a proper prefix orders before the longer string. -/
def byteOrderSign : List Int → List Int → Int
  | [], [] => 0
  | [], _ :: _ => -1
  | _ :: _, [] => 1
  | x :: xs, y :: ys => if x < y then -1 else if y < x then 1 else byteOrderSign xs ys

/-- The bytes a name spells: every escaping backslash is dropped and the byte
behind it kept. -/
def spelled : List gchar → List gchar
  | [] => []
  | [c] => if c = 92 then [] else [c]
  | c :: d :: t => if c = 92 then d :: spelled t else c :: spelled (d :: t)

/-! ## The name scan: iteration budget -/

theorem cmp_loop_succ (n : Nat) : ∀ a b : List gchar,
    avahi_domain_cmp_loop n a b ≠ .error .outOfFuel →
    avahi_domain_cmp_loop (n + 1) a b = avahi_domain_cmp_loop n a b := by
  induction n with
  | zero => intro a b h; exact absurd rfl h
  | succ n ih =>
    intro a b h
    rw [avahi_domain_cmp_loop] at h ⊢
    conv_rhs => rw [avahi_domain_cmp_loop]
    generalize (if decide (peek a = 92) = true then a.tail else a) = a1 at h ⊢
    generalize (if decide (peek b = 92) = true then b.tail else b) = b1 at h ⊢
    split_ifs at h ⊢ <;> try rfl
    all_goals
      split at h <;> first | (exact ih _ _ h) | rfl

theorem length_skip_le (c : Bool) (a : List gchar) :
    (if c = true then a.tail else a).length ≤ a.length := by
  split <;> simp

theorem cmp_loop_enough (n : Nat) : ∀ a b : List gchar, a.length < n →
    avahi_domain_cmp_loop n a b ≠ .error .outOfFuel := by
  induction n with
  | zero => intro a b h; omega
  | succ n ih =>
    intro a b h
    rw [avahi_domain_cmp_loop]
    have ha := length_skip_le (decide (peek a = 92)) a
    generalize (if decide (peek a = 92) = true then a.tail else a) = a1 at ha ⊢
    generalize (if decide (peek b = 92) = true then b.tail else b) = b1
    split_ifs <;> try simp
    split
    · rename_i x a2 y b2
      apply ih
      simp only [List.length_cons] at ha
      omega
    · simp

theorem cmp_loop_ge (n : Nat) (a b : List gchar) (h : a.length < n) :
    avahi_domain_cmp_loop n a b = avahi_domain_cmp a b := by
  have key : ∀ k, avahi_domain_cmp_loop (a.length + 1 + k) a b
      = avahi_domain_cmp_loop (a.length + 1) a b := by
    intro k
    induction k with
    | zero => rfl
    | succ k ih =>
      rw [← ih]
      exact cmp_loop_succ (a.length + 1 + k) a b
        (cmp_loop_enough _ a b (Nat.lt_of_lt_of_le (Nat.lt_succ_self _) (Nat.le_add_right _ _)))
  have hn : n = a.length + 1 + (n - (a.length + 1)) := by omega
  rw [hn, key]
  rfl

/-- The scan as a recursion on the two pointers, free of the iteration budget. -/
theorem cmp_unfold (a b : List gchar) :
    avahi_domain_cmp a b =
      (let escaped_a : Bool := decide (peek a = 92)
       let a := if escaped_a then a.tail else a
       let escaped_b : Bool := decide (peek b = 92)
       let b := if escaped_b then b.tail else b
       if peek a = 0 ∧ peek b = 0 then .ok 0
       else if peek a = 0 ∧ escaped_b = false ∧ peek b = 46 ∧ peek b.tail = 0 then .ok 0
       else if escaped_a = false ∧ peek a = 46 ∧ peek a.tail = 0 ∧ peek b = 0 then .ok 0
       else if escaped_a = escaped_b ∧ peek a ≠ peek b then
         .ok (if peek a < peek b then -1 else 1)
       else
         match a, b with
         | _ :: a', _ :: b' => avahi_domain_cmp a' b'
         | _, _ => .error .outOfBounds) := by
  conv_lhs => rw [avahi_domain_cmp, avahi_domain_cmp_loop]
  have ha := length_skip_le (decide (peek a = 92)) a
  dsimp only
  generalize (if decide (peek a = 92) = true then a.tail else a) = a1 at ha ⊢
  generalize (if decide (peek b = 92) = true then b.tail else b) = b1
  split_ifs <;> try rfl
  split
  · rename_i x a2 y b2
    apply cmp_loop_ge
    simp only [List.length_cons] at ha
    omega
  · rfl

theorem getLast?_cons_cons' (x y : gchar) (t : List gchar) :
    (x :: y :: t).getLast? = (y :: t).getLast? := by
  simp [List.getLast?_cons_cons]

/-- A name that does not end in a backslash compares equal to itself. -/
theorem cmp_self : ∀ n : List gchar, n.getLast? ≠ some 92 → avahi_domain_cmp n n = .ok 0
  | [], _ => by rw [cmp_unfold]; simp [peek]
  | [x], h => by
    have hx : x ≠ 92 := by simpa using h
    rw [cmp_unfold]
    by_cases h0 : x = 0
    · simp [peek, h0]
    · have := cmp_self [] (by simp)
      simp [peek, hx, h0, this]
  | x :: y :: t, h => by
    rw [getLast?_cons_cons'] at h
    rw [cmp_unfold]
    by_cases hx : x = 92
    · have ht : t.getLast? ≠ some 92 := by
        cases t with
        | nil => simp
        | cons z t => rwa [getLast?_cons_cons'] at h
      have := cmp_self t ht
      by_cases h0 : y = 0
      · simp [peek, hx, h0]
      · simp [peek, hx, h0, this]
    · have := cmp_self (y :: t) h
      by_cases h0 : x = 0
      · simp [peek, hx, h0]
      · simp [peek, hx, h0, this]

/-- A name that does not end in a backslash compares equal to itself followed
by a dot, in both argument orders. -/
theorem cmp_append_dot : ∀ n : List gchar, n.getLast? ≠ some 92 →
    avahi_domain_cmp n (n ++ [46]) = .ok 0 ∧ avahi_domain_cmp (n ++ [46]) n = .ok 0
  | [], _ => by
    constructor <;> (rw [cmp_unfold]; simp [peek])
  | [x], h => by
    have hx : x ≠ 92 := by simpa using h
    have := cmp_append_dot [] (by simp)
    simp only [List.nil_append] at this
    by_cases h0 : x = 0
    · constructor <;> (rw [cmp_unfold]; simp [peek, h0])
    · constructor <;> (rw [cmp_unfold]; simp [peek, hx, h0, this])
  | x :: y :: t, h => by
    rw [getLast?_cons_cons'] at h
    by_cases hx : x = 92
    · have ht : t.getLast? ≠ some 92 := by
        cases t with
        | nil => simp
        | cons z t => rwa [getLast?_cons_cons'] at h
      have := cmp_append_dot t ht
      by_cases h0 : y = 0
      · constructor <;> (rw [cmp_unfold]; simp [peek, hx, h0])
      · constructor <;> (rw [cmp_unfold]; simp [peek, hx, h0, this])
    · have := cmp_append_dot (y :: t) h
      simp only [List.cons_append] at this
      by_cases h0 : x = 0
      · constructor <;> (rw [cmp_unfold]; simp [peek, hx, h0])
      · constructor <;> (rw [cmp_unfold]; simp [peek, hx, h0, this])

/-- Claim C1. For every name `n` whose last byte is not a backslash, `n` and
`avahi_normalize_name n` compare equal: `avahi_domain_equal` yields true on
them and `avahi_domain_cmp` returns `0` in both argument orders. -/
theorem C1_normalized_name_equal (n : List gchar) (h : n.getLast? ≠ some 92) :
    avahi_domain_equal n (avahi_normalize_name n) = .ok true
    ∧ avahi_domain_cmp n (avahi_normalize_name n) = .ok 0
    ∧ avahi_domain_cmp (avahi_normalize_name n) n = .ok 0 := by
  have key : avahi_domain_cmp n (avahi_normalize_name n) = .ok 0
      ∧ avahi_domain_cmp (avahi_normalize_name n) n = .ok 0 := by
    unfold avahi_normalize_name
    dsimp only
    split_ifs with h1 h2
    · have : n = [] := List.length_eq_zero.mp h1
      subst this
      exact cmp_append_dot [] h
    · exact ⟨cmp_self n h, cmp_self n h⟩
    · exact cmp_append_dot n h
  refine ⟨?_, key.1, key.2⟩
  unfold avahi_domain_equal
  rw [key.1]
  rfl

/-- Instances of C1: the empty name against `"."` and a name with
an escaped dot. -/
theorem C1_normalized_name_equal_witness :
    (avahi_domain_equal [] (avahi_normalize_name []) = .ok true
      ∧ avahi_domain_cmp [] (avahi_normalize_name []) = .ok 0
      ∧ avahi_domain_cmp (avahi_normalize_name []) [] = .ok 0)
    ∧ avahi_normalize_name [] = lit "."
    ∧ (avahi_domain_equal (lit "foo\\.bar.example.com")
          (avahi_normalize_name (lit "foo\\.bar.example.com")) = .ok true
      ∧ avahi_domain_cmp (lit "foo\\.bar.example.com")
          (avahi_normalize_name (lit "foo\\.bar.example.com")) = .ok 0
      ∧ avahi_domain_cmp (avahi_normalize_name (lit "foo\\.bar.example.com"))
          (lit "foo\\.bar.example.com") = .ok 0) :=
  ⟨C1_normalized_name_equal [] (by decide), by decide,
   C1_normalized_name_equal (lit "foo\\.bar.example.com") (by decide)⟩

/-! ## The hash -/

theorem getD_buffer (p : List gchar) (i : Nat) (hi : i < 255) :
    (strncpy p 255 ++ [0]).getD i 0 = p.getD i 0 := by
  unfold strncpy
  simp only [List.getD_eq_getElem?_getD]
  by_cases h : i < p.length
  · have h1 : i < (List.take 255 p ++ List.replicate (255 - p.length) 0).length := by
      simp; omega
    have h2 : i < (List.take 255 p).length := by simp; omega
    rw [List.getElem?_append_left h1, List.getElem?_append_left h2, List.getElem?_take]
    simp [hi]
  · have h3 : p[i]? = none := List.getElem?_eq_none (by omega)
    have hlen : p.length ≤ 255 := by omega
    have h4 : (List.replicate (255 - p.length) (0 : gchar) ++ [0]) = List.replicate (255 - p.length + 1) 0 := by
      rw [List.replicate_succ']
    rw [h3, List.take_of_length_le hlen, List.append_assoc, h4,
      List.getElem?_append_right (by omega), List.getElem?_replicate]
    split <;> rfl

/-- The hash is the 32-bit integer spelled by the first four bytes of the name,
a name shorter than that being continued with NUL bytes. -/
theorem hash_eq_bytes (p : List gchar) :
    avahi_domain_hash p = byte (p.getD 0 0) + 256 * byte (p.getD 1 0)
      + 65536 * byte (p.getD 2 0) + 16777216 * byte (p.getD 3 0) := by
  unfold avahi_domain_hash g_int_hash
  simp only [getD_buffer p _ (by decide : 0 < 255), getD_buffer p _ (by decide : 1 < 255),
    getD_buffer p _ (by decide : 2 < 255), getD_buffer p _ (by decide : 3 < 255)]

/-- Two names that compare equal while their leading bytes are neither a
terminator nor a backslash have the same leading byte, and their tails compare
equal. -/
theorem equal_cons_cons (x y : gchar) (a b : List gchar)
    (hx0 : x ≠ 0) (hx : x ≠ 92) (hy0 : y ≠ 0) (hy : y ≠ 92)
    (h : avahi_domain_cmp (x :: a) (y :: b) = .ok 0) :
    x = y ∧ avahi_domain_cmp a b = .ok 0 := by
  rw [cmp_unfold] at h
  by_cases hxy : x = y
  · subst hxy
    simpa [peek, hx, hx0] using h
  · exfalso
    simp [peek, hx, hy, hx0, hy0, hxy] at h
    split at h <;> simp at h

theorem equal_iff_cmp (a b : List gchar) :
    avahi_domain_equal a b = .ok true ↔ avahi_domain_cmp a b = .ok 0 := by
  unfold avahi_domain_equal
  cases h : avahi_domain_cmp a b with
  | error e => simp [Except.map]
  | ok r => simp [Except.map]

/-- Claim C2, as amended. For names `a` and `b` of at least four bytes each whose
first four bytes hold neither a NUL nor a backslash, `avahi_domain_equal a b`
being true implies `avahi_domain_hash a = avahi_domain_hash b`. -/
theorem C2_hash_consistent_on_plain_prefix (a b : List gchar)
    (ha : 4 ≤ a.length) (hb : 4 ≤ b.length)
    (hpa : ∀ c ∈ a.take 4, c ≠ 0 ∧ c ≠ 92) (hpb : ∀ c ∈ b.take 4, c ≠ 0 ∧ c ≠ 92)
    (heq : avahi_domain_equal a b = .ok true) :
    avahi_domain_hash a = avahi_domain_hash b := by
  rw [equal_iff_cmp] at heq
  match a, b, ha, hb with
  | a0 :: a1 :: a2 :: a3 :: ta, b0 :: b1 :: b2 :: b3 :: tb, _, _ =>
    simp only [List.take_succ_cons, List.take_zero, List.mem_cons, List.mem_nil_iff, or_false,
      forall_eq_or_imp, forall_eq] at hpa hpb
    obtain ⟨⟨p0, q0⟩, ⟨p1, q1⟩, ⟨p2, q2⟩, ⟨p3, q3⟩⟩ := hpa
    obtain ⟨⟨r0, s0⟩, ⟨r1, s1⟩, ⟨r2, s2⟩, ⟨r3, s3⟩⟩ := hpb
    obtain ⟨e0, heq⟩ := equal_cons_cons _ _ _ _ p0 q0 r0 s0 heq
    obtain ⟨e1, heq⟩ := equal_cons_cons _ _ _ _ p1 q1 r1 s1 heq
    obtain ⟨e2, heq⟩ := equal_cons_cons _ _ _ _ p2 q2 r2 s2 heq
    obtain ⟨e3, _⟩ := equal_cons_cons _ _ _ _ p3 q3 r3 s3 heq
    rw [hash_eq_bytes, hash_eq_bytes]
    simp [e0, e1, e2, e3]

/-- An instance of the amended C2: `"foo.example.com"` and `"foo.example.com."`. -/
theorem C2_hash_consistent_on_plain_prefix_witness :
    avahi_domain_hash (lit "foo.example.com") = avahi_domain_hash (lit "foo.example.com.") :=
  C2_hash_consistent_on_plain_prefix (lit "foo.example.com") (lit "foo.example.com.")
    (by decide) (by decide) (by decide) (by decide) (by decide)

/-- Claim C2, counterexample. `"foo"` and `"foo."` are equal names with different
hashes. -/
theorem C2_hash_not_consistent_with_equal :
    avahi_domain_equal (lit "foo") (lit "foo.") = .ok true
    ∧ avahi_domain_hash (lit "foo") ≠ avahi_domain_hash (lit "foo.") := by
  decide

/-! ## Order laws of the name scan -/

theorem verdict_swap (ea eb : Bool) (ca cb na nb : Int) :
    verdict eb ea cb ca nb na = (verdict ea eb ca cb na nb).map (fun r => -r) := by
  unfold verdict
  by_cases h1 : ca = 0 <;> by_cases h2 : cb = 0
  · simp [h1, h2]
  · by_cases h3 : eb = false ∧ cb = 46 ∧ nb = 0
    · simp [h1, h2, h3]
    · by_cases h4 : eb = ea
      · subst h4
        have h5 : cb < 0 ∨ 0 < cb := by omega
        rcases h5 with h5 | h5
        · have : ¬ (0 < cb) := by omega
          simp [h1, h2, h3, h5, this, Ne.symm h2]
        · have : ¬ (cb < 0) := by omega
          simp [h1, h2, h3, h5, this, Ne.symm h2]
      · simp [h1, h2, h3, h4, Ne.symm h4]
  · by_cases h3 : ea = false ∧ ca = 46 ∧ na = 0
    · simp [h1, h2, h3]
    · by_cases h4 : ea = eb
      · subst h4
        have h5 : ca < 0 ∨ 0 < ca := by omega
        rcases h5 with h5 | h5
        · have : ¬ (0 < ca) := by omega
          simp [h1, h2, h3, h5, this, Ne.symm h1]
        · have : ¬ (ca < 0) := by omega
          simp [h1, h2, h3, h5, this, Ne.symm h1]
      · simp [h1, h2, h3, h4, Ne.symm h4]
  · by_cases h4 : ea = eb
    · by_cases h5 : ca = cb
      · simp [h1, h2, h4, h5]
      · have h6 : ca < cb ∨ cb < ca := by omega
        rcases h6 with h6 | h6
        · have : ¬ (cb < ca) := by omega
          simp [h1, h2, h4, h5, h6, this, Ne.symm h5]
        · have : ¬ (ca < cb) := by omega
          simp [h1, h2, h4, h5, h6, this, Ne.symm h5]
    · simp [h1, h2, h4, Ne.symm h4]

/-- The scan in terms of `verdict`. -/
theorem cmp_unfold_verdict (a b : List gchar) :
    avahi_domain_cmp a b =
      (let ea : Bool := decide (peek a = 92)
       let a1 := if ea then a.tail else a
       let eb : Bool := decide (peek b = 92)
       let b1 := if eb then b.tail else b
       match verdict ea eb (peek a1) (peek b1) (peek a1.tail) (peek b1.tail) with
       | some r => .ok r
       | none =>
         match a1, b1 with
         | _ :: a', _ :: b' => avahi_domain_cmp a' b'
         | _, _ => .error .outOfBounds) := by
  rw [cmp_unfold]
  unfold verdict
  dsimp only
  split_ifs <;> rfl

theorem cmp_swap_aux (n : Nat) : ∀ a b : List gchar, a.length = n →
    avahi_domain_cmp b a = (avahi_domain_cmp a b).map (fun r => -r) := by
  induction n using Nat.strong_induction_on with
  | _ n ih =>
    intro a b hn
    rw [cmp_unfold_verdict a b, cmp_unfold_verdict b a]
    dsimp only
    have ha := length_skip_le (decide (peek a = 92)) a
    generalize (if decide (peek a = 92) = true then a.tail else a) = a1 at ha ⊢
    generalize (if decide (peek b = 92) = true then b.tail else b) = b1
    rw [verdict_swap (decide (peek a = 92)) (decide (peek b = 92))]
    cases verdict (decide (peek a = 92)) (decide (peek b = 92)) (peek a1) (peek b1)
      (peek a1.tail) (peek b1.tail) with
    | some r => rfl
    | none =>
      simp only [Option.map]
      rcases a1 with _ | ⟨x, a2⟩ <;> rcases b1 with _ | ⟨y, b2⟩ <;> try rfl
      simp only [List.length_cons] at ha
      exact ih a2.length (by omega) a2 b2 rfl

/-- Swapping the two names negates the result of the scan, and a scan that
leaves one of the names does so in either order. -/
theorem cmp_swap (a b : List gchar) :
    avahi_domain_cmp b a = (avahi_domain_cmp a b).map (fun r => -r) :=
  cmp_swap_aux a.length a b rfl

theorem verdict_range (ea eb : Bool) (ca cb na nb r : Int)
    (h : verdict ea eb ca cb na nb = some r) : r = -1 ∨ r = 0 ∨ r = 1 := by
  unfold verdict at h
  split_ifs at h <;> simp at h <;> omega

theorem cmp_range_aux (n : Nat) : ∀ a b : List gchar, a.length = n →
    avahi_domain_cmp a b = .ok (-1) ∨ avahi_domain_cmp a b = .ok 0
      ∨ avahi_domain_cmp a b = .ok 1 ∨ avahi_domain_cmp a b = .error .outOfBounds := by
  induction n using Nat.strong_induction_on with
  | _ n ih =>
    intro a b hn
    rw [cmp_unfold_verdict a b]
    dsimp only
    have ha := length_skip_le (decide (peek a = 92)) a
    generalize (if decide (peek a = 92) = true then a.tail else a) = a1 at ha ⊢
    generalize (if decide (peek b = 92) = true then b.tail else b) = b1
    cases hv : verdict (decide (peek a = 92)) (decide (peek b = 92)) (peek a1) (peek b1)
      (peek a1.tail) (peek b1.tail) with
    | some r =>
      rcases verdict_range _ _ _ _ _ _ r hv with h | h | h <;> simp [h]
    | none =>
      rcases a1 with _ | ⟨x, a2⟩ <;> rcases b1 with _ | ⟨y, b2⟩ <;> try simp
      simp only [List.length_cons] at ha
      exact ih a2.length (by omega) a2 b2 rfl

/-- Where the scan returns a value, that value is `-1`, `0` or `1` and the scan
of the swapped names returns its negation; where it reads behind a terminator,
it does so in both argument orders. -/
theorem cmp_swap_and_range (a b : List gchar) :
    avahi_domain_cmp b a = (avahi_domain_cmp a b).map (fun r => -r)
    ∧ (avahi_domain_cmp a b = .ok (-1) ∨ avahi_domain_cmp a b = .ok 0
      ∨ avahi_domain_cmp a b = .ok 1 ∨ avahi_domain_cmp a b = .error .outOfBounds) :=
  ⟨cmp_swap a b, cmp_range_aux a.length a b rfl⟩

theorem plain_tail (x : gchar) (xs : List gchar) (h : plain (x :: xs)) : plain xs := by
  refine ⟨fun c hc => h.1 c (List.mem_cons_of_mem _ hc), ?_⟩
  cases xs with
  | nil => simp
  | cons y t =>
    have := h.2
    rwa [getLast?_cons_cons'] at this

theorem plain_head (x : gchar) (xs : List gchar) (h : plain (x :: xs)) :
    x ≠ 0 ∧ x ≠ 92 ∧ ¬ (x = 46 ∧ peek xs = 0) := by
  refine ⟨(h.1 x (List.mem_cons_self _ _)).1, (h.1 x (List.mem_cons_self _ _)).2, ?_⟩
  rintro ⟨h1, h2⟩
  cases xs with
  | nil => exact h.2 (by simp [h1])
  | cons y t =>
    simp only [peek] at h2
    exact (h.1 y (by simp)).1 h2

theorem peek_nil : peek [] = 0 := rfl

theorem peek_cons (c : gchar) (t : List gchar) : peek (c :: t) = c := rfl

/-- On plain names the scan returns the order of the two byte strings. -/
theorem cmp_plain : ∀ a b : List gchar, plain a → plain b →
    avahi_domain_cmp a b = .ok (lexSign a b)
  | [], [], _, _ => by rw [cmp_unfold]; simp [peek, lexSign]
  | [], y :: ys, _, hb => by
    obtain ⟨h0, h1, h2⟩ := plain_head y ys hb
    rw [cmp_unfold]
    have h3 : ¬ (y = 46 ∧ peek ys = 0) := h2
    simp only [not_and] at h3
    simp [peek_nil, peek_cons, lexSign, h0, h1, Ne.symm h0]
    intro h h'; exact absurd h' (h3 h)
  | x :: xs, [], ha, _ => by
    obtain ⟨h0, h1, h2⟩ := plain_head x xs ha
    rw [cmp_unfold]
    simp only [not_and] at h2
    simp [peek_nil, peek_cons, lexSign, h0, h1]
    intro h h'; exact absurd h' (h2 h)
  | x :: xs, y :: ys, ha, hb => by
    obtain ⟨h0, h1, _⟩ := plain_head x xs ha
    obtain ⟨k0, k1, _⟩ := plain_head y ys hb
    have ih := cmp_plain xs ys (plain_tail x xs ha) (plain_tail y ys hb)
    rw [cmp_unfold]
    by_cases hxy : x = y
    · subst hxy
      simp [peek, lexSign, h0, h1, ih]
    · simp [peek, lexSign, h0, h1, k0, k1, hxy]

theorem lexSign_trans : ∀ a b c : List Int,
    (∀ x ∈ a, x ≠ 0) → (∀ x ∈ b, x ≠ 0) → (∀ x ∈ c, x ≠ 0) →
    lexSign a b ≤ 0 → lexSign b c ≤ 0 → lexSign a c ≤ 0
  | [], [], c, _, _, _, _, h2 => h2
  | [], _ :: _, [], _, _, _, _, _ => by simp [lexSign]
  | [], y :: ys, z :: zs, _, _, _, h1, h2 => by
    simp only [lexSign] at h1 h2 ⊢
    split_ifs at h1 h2 ⊢ <;> omega
  | _ :: _, [], [], _, _, _, h1, _ => h1
  | x :: xs, [], z :: zs, _, _, _, h1, h2 => by
    simp only [lexSign] at h1 h2 ⊢
    split_ifs at h1 h2 ⊢ <;> omega
  | x :: xs, y :: ys, [], _, _, _, h1, h2 => by
    simp only [lexSign] at h1 h2 ⊢
    split_ifs at h1 h2 ⊢ <;> omega
  | x :: xs, y :: ys, z :: zs, ha, hb, hc, h1, h2 => by
    have ih := lexSign_trans xs ys zs (fun c hc => ha c (List.mem_cons_of_mem _ hc))
      (fun c h => hb c (List.mem_cons_of_mem _ h)) (fun c h => hc c (List.mem_cons_of_mem _ h))
    simp only [lexSign] at h1 h2 ⊢
    split_ifs at h1 h2 ⊢ <;> omega

theorem lexSign_self : ∀ a : List Int, lexSign a a = 0
  | [] => rfl
  | x :: xs => by simp [lexSign, lexSign_self xs]

theorem lexSign_append_dot_right : ∀ a b : List Int,
    lexSign a b ≤ 0 → lexSign a (b ++ [46]) ≤ 0
  | [], [], _ => by simp [lexSign]
  | [], y :: ys, h => by
    simp only [lexSign, List.cons_append] at h ⊢
    exact h
  | x :: xs, [], h => by
    simp only [lexSign, List.nil_append] at h ⊢
    split_ifs at h ⊢ <;> omega
  | x :: xs, y :: ys, h => by
    have ih := lexSign_append_dot_right xs ys
    simp only [lexSign, List.cons_append] at h ⊢
    split_ifs at h ⊢ <;> first | omega | exact ih h

theorem unescaped_tail (x : gchar) (xs : List gchar) (h : unescaped (x :: xs)) :
    unescaped xs :=
  fun c hc => h c (List.mem_cons_of_mem _ hc)

theorem unescaped_peek (a : List gchar) (h : unescaped a) (h0 : peek a = 0) : a = [] := by
  cases a with
  | nil => rfl
  | cons x xs => exact absurd h0 (h x (List.mem_cons_self _ _)).1

theorem unescaped_getLast (a : List gchar) (h : unescaped a) : a.getLast? ≠ some 92 := by
  intro hl
  exact (h 92 (List.mem_of_getLast?_eq_some hl)).2 rfl

/-- On names without escapes, neither of which is the other followed by one dot,
the scan returns the order of the two byte strings. -/
theorem cmp_unescaped : ∀ a b : List gchar, unescaped a → unescaped b →
    a ≠ b ++ [46] → b ≠ a ++ [46] → avahi_domain_cmp a b = .ok (lexSign a b)
  | [], [], _, _, _, _ => by rw [cmp_unfold]; simp [peek_nil, lexSign]
  | [], y :: ys, _, hb, _, hba => by
    obtain ⟨h0, h1⟩ := hb y (List.mem_cons_self _ _)
    have h2 : y = 46 → peek ys = 0 → False := by
      intro e1 e2
      have := unescaped_peek ys (unescaped_tail y ys hb) e2
      exact hba (by rw [e1, this]; rfl)
    rw [cmp_unfold]
    simp [peek_nil, peek_cons, lexSign, h0, h1, Ne.symm h0]
    intro e1 e2; exact absurd e2 (fun e => h2 e1 e)
  | x :: xs, [], ha, _, hab, _ => by
    obtain ⟨h0, h1⟩ := ha x (List.mem_cons_self _ _)
    have h2 : x = 46 → peek xs = 0 → False := by
      intro e1 e2
      have := unescaped_peek xs (unescaped_tail x xs ha) e2
      exact hab (by rw [e1, this]; rfl)
    rw [cmp_unfold]
    simp [peek_nil, peek_cons, lexSign, h0, h1]
    intro e1 e2; exact absurd e2 (fun e => h2 e1 e)
  | x :: xs, y :: ys, ha, hb, hab, hba => by
    obtain ⟨h0, h1⟩ := ha x (List.mem_cons_self _ _)
    obtain ⟨k0, k1⟩ := hb y (List.mem_cons_self _ _)
    rw [cmp_unfold]
    by_cases hxy : x = y
    · subst hxy
      have ih := cmp_unescaped xs ys (unescaped_tail x xs ha) (unescaped_tail x ys hb)
        (fun e => hab (by rw [e]; rfl)) (fun e => hba (by rw [e]; rfl))
      simp [peek_nil, peek_cons, lexSign, h0, h1, ih]
    · simp [peek_nil, peek_cons, lexSign, h0, h1, k0, k1, hxy]

/-- On names without escapes, `avahi_domain_cmp(a, b) <= 0` gives the byte order
`a <= b` unless `a` is `b` followed by one dot. -/
theorem lexSign_of_cmp_le (a b : List gchar) (ha : unescaped a) (hb : unescaped b)
    (hab : a ≠ b ++ [46]) (x : Int) (h : avahi_domain_cmp a b = .ok x) (hx : x ≤ 0) :
    lexSign a b ≤ 0 := by
  by_cases hba : b = a ++ [46]
  · rw [hba]
    exact lexSign_append_dot_right a a (le_of_eq (lexSign_self a))
  · rw [cmp_unescaped a b ha hb hab hba] at h
    injection h with h
    omega

/-- On names without escapes, the byte order `a <= c` makes the scan return a
value `<= 0`. -/
theorem cmp_le_of_lexSign (a c : List gchar) (ha : unescaped a) (hc : unescaped c)
    (h : lexSign a c ≤ 0) : ∃ z, avahi_domain_cmp a c = .ok z ∧ z ≤ 0 := by
  by_cases h1 : a = c ++ [46]
  · exact ⟨0, by rw [h1]; exact (cmp_append_dot c (unescaped_getLast c hc)).2, le_refl 0⟩
  · by_cases h2 : c = a ++ [46]
    · exact ⟨0, by rw [h2]; exact (cmp_append_dot a (unescaped_getLast a ha)).1, le_refl 0⟩
    · exact ⟨lexSign a c, cmp_unescaped a c ha hc h1 h2, h⟩

/-- Claim C3, as amended. On names without NUL byte and backslash the comparison
is transitive along every chain in which no name is followed by its own
undotted form: if `a` is not `b` followed by one dot and `b` is not `c` followed
by one dot, then `avahi_domain_cmp(a, b) <= 0` and `avahi_domain_cmp(b, c) <= 0`
imply that `avahi_domain_cmp(a, c)` returns a value `<= 0`. -/
theorem C3_cmp_transitive_off_dotted_twins (a b c : List gchar)
    (ha : unescaped a) (hb : unescaped b) (hc : unescaped c)
    (hab : a ≠ b ++ [46]) (hbc : b ≠ c ++ [46]) (x y : Int)
    (h1 : avahi_domain_cmp a b = .ok x) (hx : x ≤ 0)
    (h2 : avahi_domain_cmp b c = .ok y) (hy : y ≤ 0) :
    ∃ z, avahi_domain_cmp a c = .ok z ∧ z ≤ 0 := by
  have l1 := lexSign_of_cmp_le a b ha hb hab x h1 hx
  have l2 := lexSign_of_cmp_le b c hb hc hbc y h2 hy
  exact cmp_le_of_lexSign a c ha hc
    (lexSign_trans a b c (fun c h => (ha c h).1) (fun c h => (hb c h).1)
      (fun c h => (hc c h).1) l1 l2)

/-- An instance of the amended C3: `"a.com"`, its dotted form `"a.com."` and the
normalised name `"b.org."`. -/
theorem C3_cmp_transitive_off_dotted_twins_witness :
    ∃ z, avahi_domain_cmp (lit "a.com") (lit "b.org.") = .ok z ∧ z ≤ 0 :=
  C3_cmp_transitive_off_dotted_twins (lit "a.com") (lit "a.com.") (lit "b.org.")
    (by decide) (by decide) (by decide) (by decide) (by decide) 0 (-1)
    (by decide) (by decide) (by decide) (by decide)

/-- Both exclusions of the amended C3 are needed for every name `b` without
escapes: along `b.`, `b`, `b!` and along `b!`, `b.`, `b` the two links compare
`<= 0` while the ends compare `> 0`. -/
theorem dotted_twin_breaks_chain : ∀ b : List gchar, unescaped b →
    avahi_domain_cmp (b ++ [46]) b = .ok 0
    ∧ avahi_domain_cmp b (b ++ [33]) = .ok (-1)
    ∧ avahi_domain_cmp (b ++ [46]) (b ++ [33]) = .ok 1
    ∧ avahi_domain_cmp (b ++ [33]) (b ++ [46]) = .ok (-1)
    ∧ avahi_domain_cmp (b ++ [33]) b = .ok 1
  | [], _ => by decide
  | x :: b, h => by
    obtain ⟨h0, h1⟩ := h x (List.mem_cons_self _ _)
    obtain ⟨i1, i2, i3, i4, i5⟩ := dotted_twin_breaks_chain b (unescaped_tail x b h)
    simp only [List.cons_append]
    refine ⟨?_, ?_, ?_, ?_, ?_⟩ <;> rw [cmp_unfold] <;>
      simp [peek_nil, peek_cons, h0, h1, i1, i2, i3, i4, i5]

/-- With a backslash in the middle name the chain `"b"`, `"\a"`, `"a"` has two
links that compare equal and ends that compare `> 0`. -/
theorem escape_mismatch_breaks_chain :
    avahi_domain_cmp (lit "b") (lit "\\a") = .ok 0
    ∧ avahi_domain_cmp (lit "\\a") (lit "a") = .ok 0
    ∧ avahi_domain_cmp (lit "b") (lit "a") = .ok 1 := by
  decide

/-- Claim C3, counterexample. `"a."` equals `"a"` and `"a"` orders before `"a!"`,
yet `"a."` orders after `"a!"`. -/
theorem C3_cmp_not_transitive :
    avahi_domain_cmp (lit "a.") (lit "a") = .ok 0
    ∧ avahi_domain_cmp (lit "a") (lit "a!") = .ok (-1)
    ∧ avahi_domain_cmp (lit "a.") (lit "a!") = .ok 1 := by
  decide

/-- Claim C5, the code at the failing input. `avahi_domain_equal` yields true on
`"foo.bar.example.com"` and `"foo\.bar.example.com"` (one backslash byte before
the first dot of the second name). -/
theorem C5_escaped_dot_compares_equal :
    avahi_domain_equal (lit "foo.bar.example.com") (lit "foo\\.bar.example.com") = .ok true := by
  decide

/-- Claim C6, the code at the failing input. `avahi_domain_equal` yields true on
`"a"` and `"\b"` (a backslash byte and the letter b), which spell the different
bytes `a` and `b`: the first iteration, where one escape flag is set and the
other is not, returns nothing although the current bytes differ. -/
theorem C6_equal_names_spell_different_bytes :
    avahi_domain_equal (lit "a") (lit "\\b") = .ok true
    ∧ spelled (lit "a") = [97] ∧ spelled (lit "\\b") = [98]
    ∧ verdict false true 97 98 0 0 = none := by
  decide

/-- Whatever stands before them, an unescaped and an escaped dot followed by the
same bytes are not told apart by the scan. -/
theorem cmp_escaped_dot : ∀ x y : List gchar, (∀ c ∈ x, c ≠ 0 ∧ c ≠ 92) →
    y.getLast? ≠ some 92 →
    avahi_domain_cmp (x ++ 46 :: y) (x ++ 92 :: 46 :: y) = .ok 0
  | [], y, _, hy => by
    rw [cmp_unfold]
    simp [peek_nil, peek_cons, cmp_self y hy]
  | c :: x, y, hx, hy => by
    have ih := cmp_escaped_dot x y (fun d hd => hx d (List.mem_cons_of_mem _ hd)) hy
    obtain ⟨h0, h1⟩ := hx c (List.mem_cons_self _ _)
    rw [List.cons_append, List.cons_append, cmp_unfold]
    simp [peek_nil, peek_cons, h0, h1, ih]

/-! ## Time arithmetic -/

theorem to_glong_of_range (x : Int) (h1 : -9223372036854775808 ≤ x)
    (h2 : x < 9223372036854775808) : to_glong x = x := by
  unfold to_glong; omega

theorem to_glong_formula (s1 s2 u1 u2 : Int) :
    to_glong (to_glong (to_glong (to_glong (s1 - s2) * 1000000) + u1) - u2)
      = to_glong ((s1 - s2) * 1000000 + (u1 - u2)) := by
  unfold to_glong; omega

/-- The two calls `avahi_timeval_diff` can make, spelled out: the result is
always present. -/
theorem timeval_diff_eq (a b : GTimeVal) :
    avahi_timeval_diff a b =
      if avahi_timeval_compare a b < 0 then
        some (to_glong ((b.tv_sec - a.tv_sec) * 1000000 + (b.tv_usec - a.tv_usec)))
      else some (to_glong ((a.tv_sec - b.tv_sec) * 1000000 + (a.tv_usec - b.tv_usec))) := by
  unfold avahi_timeval_diff
  simp only [avahi_timeval_diff_fuel, to_glong_formula]
  split_ifs with h1 h2
  · exfalso
    unfold avahi_timeval_compare at h1 h2
    split_ifs at h1 h2 <;> omega
  · rfl
  · rfl

/-- Claim C7, the code at the failing input. With the clock at 3000 s and `past`
at the epoch, `avahi_timeval_diff` returns 3000000000 microseconds and
`avahi_age` returns the negative number -1294967296. -/
theorem C7_age_narrows_diff :
    avahi_timeval_diff ⟨3000, 0⟩ ⟨0, 0⟩ = some 3000000000
    ∧ avahi_age ⟨3000, 0⟩ ⟨0, 0⟩ = some (-1294967296)
    ∧ GTimeVal.wellFormed ⟨3000, 0⟩ ∧ GTimeVal.wellFormed ⟨0, 0⟩ := by
  decide

theorem timeval_compare_neg_iff (a b : GTimeVal) (ha : a.wellFormed) (hb : b.wellFormed) :
    avahi_timeval_compare a b < 0 ↔
      (a.tv_sec - b.tv_sec) * 1000000 + (a.tv_usec - b.tv_usec) < 0 := by
  obtain ⟨ha1, ha2⟩ := ha
  obtain ⟨hb1, hb2⟩ := hb
  unfold avahi_timeval_compare
  split_ifs <;> constructor <;> intro h <;> omega

theorem timeval_diff_abs (a b : GTimeVal) (ha : a.wellFormed) (hb : b.wellFormed)
    (hfit : |(a.tv_sec - b.tv_sec) * 1000000 + (a.tv_usec - b.tv_usec)| < 9223372036854775808) :
    avahi_timeval_diff a b
      = some |(a.tv_sec - b.tv_sec) * 1000000 + (a.tv_usec - b.tv_usec)| := by
  rw [abs_lt] at hfit
  obtain ⟨hf1, hf2⟩ := hfit
  rw [timeval_diff_eq]
  by_cases h : avahi_timeval_compare a b < 0
  · rw [if_pos h]
    have hD := (timeval_compare_neg_iff a b ha hb).mp h
    rw [abs_of_neg hD, to_glong_of_range _ (by omega) (by omega)]
    congr 1
    ring
  · rw [if_neg h]
    have hD : 0 ≤ (a.tv_sec - b.tv_sec) * 1000000 + (a.tv_usec - b.tv_usec) := by
      have := (timeval_compare_neg_iff a b ha hb).not.mp h
      omega
    rw [abs_of_nonneg hD, to_glong_of_range _ (by omega) (by omega)]

/-- Claim C8. For instants `a` and `b` with microseconds in `[0, 1000000)` whose
exact distance fits in a signed 64-bit integer, `avahi_timeval_diff` returns,
in either argument order, the magnitude
`|(a.sec - b.sec) * 1000000 + (a.usec - b.usec)|`, which is non-negative. -/
theorem C8_timeval_diff_exact_magnitude (a b : GTimeVal)
    (ha : a.wellFormed) (hb : b.wellFormed)
    (hfit : |(a.tv_sec - b.tv_sec) * 1000000 + (a.tv_usec - b.tv_usec)| < 9223372036854775808) :
    avahi_timeval_diff a b = some |(a.tv_sec - b.tv_sec) * 1000000 + (a.tv_usec - b.tv_usec)|
    ∧ avahi_timeval_diff b a = some |(a.tv_sec - b.tv_sec) * 1000000 + (a.tv_usec - b.tv_usec)|
    ∧ 0 ≤ |(a.tv_sec - b.tv_sec) * 1000000 + (a.tv_usec - b.tv_usec)| := by
  have hswap : (b.tv_sec - a.tv_sec) * 1000000 + (b.tv_usec - a.tv_usec)
      = -((a.tv_sec - b.tv_sec) * 1000000 + (a.tv_usec - b.tv_usec)) := by ring
  refine ⟨timeval_diff_abs a b ha hb hfit, ?_, abs_nonneg _⟩
  have h := timeval_diff_abs b a hb ha (by rw [hswap, abs_neg]; exact hfit)
  rw [hswap, abs_neg] at h
  exact h

/-- An instance of C8: from 5 s + 999999 µs to 7 s + 1 µs there are 1000002 µs,
in either argument order. -/
theorem C8_timeval_diff_exact_magnitude_witness :
    avahi_timeval_diff ⟨5, 999999⟩ ⟨7, 1⟩ = some |(5 - 7) * 1000000 + (999999 - 1)|
    ∧ avahi_timeval_diff ⟨7, 1⟩ ⟨5, 999999⟩ = some |(5 - 7) * 1000000 + (999999 - 1)|
    ∧ (0 : Int) ≤ |(5 - 7) * 1000000 + (999999 - 1)| :=
  C8_timeval_diff_exact_magnitude ⟨5, 999999⟩ ⟨7, 1⟩ (by decide) (by decide) (by decide)

/-- Claim C9. For all instants `a` and `b`, well-formed or not,
`avahi_timeval_diff(a, b) = avahi_timeval_diff(b, a)`, and
`avahi_timeval_diff(a, a) = 0`. -/
theorem C9_timeval_diff_symmetric (a b : GTimeVal) :
    avahi_timeval_diff a b = avahi_timeval_diff b a ∧ avahi_timeval_diff a a = some 0 := by
  constructor
  · rw [timeval_diff_eq a b, timeval_diff_eq b a]
    unfold avahi_timeval_compare
    split_ifs <;> first | rfl | omega | (congr 2; omega)
  · rw [timeval_diff_eq a a]
    unfold avahi_timeval_compare to_glong
    simp

theorem usecs_time_val_add (t : GTimeVal) (m : Int) :
    (g_time_val_add t m).usecs = t.usecs + m ∧ (g_time_val_add t m).wellFormed := by
  unfold g_time_val_add GTimeVal.usecs GTimeVal.wellFormed
  dsimp only
  refine ⟨?_, ?_, ?_⟩ <;> omega

/-- Claim C10, as amended. With the clock reading `T` (microseconds in
`[0, 1000000)`) and the random draw `r` as inputs, for a base delay
`msec ≤ 4294967`, a jitter `≤ 2147484` and `r` in `[0, jitter)`,
`avahi_elapse_time` returns exactly the instant `T + (msec + r)` milliseconds,
which lies in `[T + msec ms, T + (msec + jitter) ms]`; with `jitter = 0` it
returns exactly `T + msec` milliseconds. -/
theorem C10_elapse_time_exact_for_small_delays (T : GTimeVal) (msec jitter : Nat) (r : Int)
    (hT : T.wellFormed) (hm : msec ≤ 4294967) (hj : jitter ≤ 2147484)
    (hr : jitter = 0 ∨ (0 ≤ r ∧ r < jitter)) :
    (avahi_elapse_time T r msec jitter).usecs
        = T.usecs + ((msec : Int) + (if jitter = 0 then 0 else r)) * 1000
    ∧ (avahi_elapse_time T r msec jitter).wellFormed
    ∧ T.usecs + (msec : Int) * 1000 ≤ (avahi_elapse_time T r msec jitter).usecs
    ∧ (avahi_elapse_time T r msec jitter).usecs ≤ T.usecs + ((msec : Int) + jitter) * 1000 := by
  have hmsec : to_guint ((msec : Int) * 1000) = (msec : Int) * 1000 := by
    unfold to_guint; omega
  have key : (avahi_elapse_time T r msec jitter).usecs
        = T.usecs + ((msec : Int) + (if jitter = 0 then 0 else r)) * 1000
      ∧ (avahi_elapse_time T r msec jitter).wellFormed := by
    unfold avahi_elapse_time
    dsimp only
    by_cases h1 : msec = 0 <;> by_cases h2 : jitter = 0
    · simp [h1, h2, hT]
    · have hr' : to_gint (r * 1000) = r * 1000 := by
        unfold to_gint; omega
      simp only [h1, h2, ne_eq, not_true_eq_false, not_false_eq_true, if_true, if_false, hr']
      obtain ⟨e1, e2⟩ := usecs_time_val_add T (r * 1000)
      refine ⟨?_, e2⟩
      rw [e1]; push_cast; ring
    · simp only [h1, h2, ne_eq, not_true_eq_false, not_false_eq_true, if_true, if_false, hmsec]
      obtain ⟨e1, e2⟩ := usecs_time_val_add T ((msec : Int) * 1000)
      refine ⟨?_, e2⟩
      rw [e1]; ring
    · have hr' : to_gint (r * 1000) = r * 1000 := by
        unfold to_gint; omega
      simp only [h1, h2, ne_eq, not_true_eq_false, not_false_eq_true, if_true, if_false, hmsec, hr']
      obtain ⟨e1, _⟩ := usecs_time_val_add T ((msec : Int) * 1000)
      obtain ⟨e3, e4⟩ := usecs_time_val_add (g_time_val_add T ((msec : Int) * 1000)) (r * 1000)
      refine ⟨?_, e4⟩
      rw [e3, e1]; ring
  refine ⟨key.1, key.2, ?_, ?_⟩
  · rw [key.1]
    split_ifs <;> omega
  · rw [key.1]
    split_ifs <;> omega

/-- An instance of the amended C10: one second of delay with a draw of 499 out
of a jitter of 500 milliseconds, from 5 s + 999999 µs. -/
theorem C10_elapse_time_exact_for_small_delays_witness :
    (avahi_elapse_time ⟨5, 999999⟩ 499 1000 500).usecs
        = GTimeVal.usecs ⟨5, 999999⟩ + (((1000 : Nat) : Int) + (if 500 = 0 then 0 else 499)) * 1000
    ∧ (avahi_elapse_time ⟨5, 999999⟩ 499 1000 500).wellFormed
    ∧ GTimeVal.usecs ⟨5, 999999⟩ + ((1000 : Nat) : Int) * 1000
        ≤ (avahi_elapse_time ⟨5, 999999⟩ 499 1000 500).usecs
    ∧ (avahi_elapse_time ⟨5, 999999⟩ 499 1000 500).usecs
        ≤ GTimeVal.usecs ⟨5, 999999⟩ + (((1000 : Nat) : Int) + (500 : Nat)) * 1000 :=
  C10_elapse_time_exact_for_small_delays ⟨5, 999999⟩ 1000 500 499
    (by decide) (by decide) (by decide) (by decide)

/-- Claim C10, counterexample. A base delay of 4294968 milliseconds without jitter,
taken at the epoch, yields the instant 704 microseconds after the epoch and not
the instant 4294968 milliseconds after it. -/
theorem C10_elapse_time_wraps :
    avahi_elapse_time ⟨0, 0⟩ 0 4294968 0 = ⟨0, 704⟩
    ∧ (avahi_elapse_time ⟨0, 0⟩ 0 4294968 0).usecs
        ≠ GTimeVal.usecs ⟨0, 0⟩ + (4294968 + 0) * 1000 := by
  decide

/-! ## Normalisation -/

theorem getD_pred_length (n : List gchar) (h : n ≠ []) :
    n.getLast? = some (n.getD (n.length - 1) 0) := by
  rw [List.getLast?_eq_getElem?, List.getD_eq_getElem?_getD]
  have : n.length - 1 < n.length := by
    have := List.length_pos.mpr h; omega
  rw [List.getElem?_eq_getElem this]
  rfl

/-- The three cases of `avahi_normalize_name` in terms of the last byte. -/
theorem normalize_name_eq (n : List gchar) :
    avahi_normalize_name n
      = if n = [] then [46] else if n.getLast? = some 46 then n else n ++ [46] := by
  unfold avahi_normalize_name
  dsimp only
  by_cases h : n = []
  · subst h; rfl
  · have hl : n.length ≠ 0 := fun h0 => h (List.length_eq_zero.mp h0)
    rw [if_neg hl, if_neg h, getD_pred_length n h]
    simp only [Option.some.injEq]

theorem normalize_name_ne_nil (n : List gchar) : avahi_normalize_name n ≠ [] := by
  rw [normalize_name_eq]
  split_ifs with h1 h2
  · simp
  · exact h1
  · simp

theorem normalize_name_getLast (n : List gchar) :
    (avahi_normalize_name n).getLast? = some 46 := by
  rw [normalize_name_eq]
  split_ifs with h1 h2
  · rfl
  · exact h2
  · simp

/-- Claim C11. For every name `n`, `avahi_normalize_name n` is `"."` if `n` is
empty, `n` itself if `n` ends with a dot, and `n` with one dot appended
otherwise; the result is never empty and always ends with a dot. -/
theorem C11_normalize_name_cases (n : List gchar) :
    avahi_normalize_name n
      = (if n = [] then [46] else if n.getLast? = some 46 then n else n ++ [46])
    ∧ avahi_normalize_name n ≠ []
    ∧ (avahi_normalize_name n).getLast? = some 46 :=
  ⟨normalize_name_eq n, normalize_name_ne_nil n, normalize_name_getLast n⟩

/-- Claim C12. Normalisation is idempotent: for every name `n`,
`avahi_normalize_name (avahi_normalize_name n) = avahi_normalize_name n`. -/
theorem C12_normalize_name_idempotent (n : List gchar) :
    avahi_normalize_name (avahi_normalize_name n) = avahi_normalize_name n := by
  rw [normalize_name_eq (avahi_normalize_name n), if_neg (normalize_name_ne_nil n),
    if_pos (normalize_name_getLast n)]

/-! ## Plain names: ordinary byte order -/

theorem lexSign_eq_byteOrderSign : ∀ a b : List Int,
    (∀ c ∈ a, 0 < c) → (∀ c ∈ b, 0 < c) → lexSign a b = byteOrderSign a b
  | [], [], _, _ => rfl
  | [], y :: ys, _, hb => by
    have := hb y (List.mem_cons_self _ _)
    simp [lexSign, byteOrderSign, this]
  | x :: xs, [], ha, _ => by
    have := ha x (List.mem_cons_self _ _)
    have h : ¬ x < 0 := by omega
    simp [lexSign, byteOrderSign, h]
  | x :: xs, y :: ys, ha, hb => by
    have ih := lexSign_eq_byteOrderSign xs ys (fun c h => ha c (List.mem_cons_of_mem _ h))
      (fun c h => hb c (List.mem_cons_of_mem _ h))
    simp only [lexSign, byteOrderSign]
    split_ifs <;> first | rfl | omega

/-- The sign `-1` of `byteOrderSign` is the lexicographic order of lists. -/
theorem byteOrderSign_neg_iff_lex : ∀ a b : List Int,
    byteOrderSign a b = -1 ↔ List.Lex (fun x y => x < y) a b
  | [], [] => by simp [byteOrderSign]
  | [], y :: ys => by simp [byteOrderSign, List.Lex.nil]
  | x :: xs, [] => by simp [byteOrderSign]
  | x :: xs, y :: ys => by
    have ih := byteOrderSign_neg_iff_lex xs ys
    simp only [byteOrderSign]
    constructor
    · intro h
      rcases lt_trichotomy x y with h1 | h1 | h1
      · exact List.Lex.rel h1
      · subst h1
        simp only [lt_irrefl, if_false] at h
        exact List.Lex.cons (ih.mp h)
      · have h2 : ¬ x < y := not_lt.mpr (le_of_lt h1)
        simp [h1, h2] at h
    · intro h
      cases h with
      | cons h' =>
        have h1 : ¬ x < x := lt_irrefl x
        simp only [h1, if_false]
        exact ih.mpr h'
      | rel h' => simp [h']

/-- The sign `0` of `byteOrderSign` is equality of the byte strings. -/
theorem byteOrderSign_zero_iff_eq : ∀ a b : List Int, byteOrderSign a b = 0 ↔ a = b
  | [], [] => by simp [byteOrderSign]
  | [], y :: ys => by simp [byteOrderSign]
  | x :: xs, [] => by simp [byteOrderSign]
  | x :: xs, y :: ys => by
    have ih := byteOrderSign_zero_iff_eq xs ys
    simp only [byteOrderSign, List.cons.injEq]
    constructor
    · intro h
      rcases lt_trichotomy x y with h1 | h1 | h1
      · simp [h1] at h
      · subst h1
        simp only [lt_irrefl, if_false] at h
        exact ⟨rfl, ih.mp h⟩
      · have h2 : ¬ x < y := not_lt.mpr (le_of_lt h1)
        simp [h1, h2] at h
    · rintro ⟨rfl, h⟩
      have h1 : ¬ x < x := lt_irrefl x
      simp only [h1, if_false]
      exact ih.mpr h

/-- Claim C13. For names `a` and `b` made of 7-bit bytes that contain no
backslash and do not end in a dot, `avahi_domain_cmp(a, b)` returns the sign of
the lexicographic byte-wise comparison of `a` and `b`, a proper prefix ordering
before the longer name. -/
theorem C13_cmp_plain_is_byte_order (a b : List gchar) (ha : plain a) (hb : plain b)
    (ha7 : ∀ c ∈ a, 0 ≤ c ∧ c ≤ 127) (hb7 : ∀ c ∈ b, 0 ≤ c ∧ c ≤ 127) :
    avahi_domain_cmp a b = .ok (byteOrderSign a b) := by
  have pos : ∀ l : List Int, plain l → (∀ c ∈ l, 0 ≤ c ∧ c ≤ 127) → ∀ c ∈ l, 0 < c := by
    intro l hl h7 c hc
    exact lt_of_le_of_ne (h7 c hc).1 (Ne.symm (hl.1 c hc).1)
  rw [cmp_plain a b ha hb, lexSign_eq_byteOrderSign a b (pos a ha ha7) (pos b hb hb7)]

/-- An instance of C13: `"a.com"` orders before `"b.com"`. -/
theorem C13_cmp_plain_is_byte_order_witness :
    avahi_domain_cmp (lit "a.com") (lit "b.com")
        = .ok (byteOrderSign (lit "a.com") (lit "b.com"))
    ∧ byteOrderSign (lit "a.com") (lit "b.com") = -1 :=
  ⟨C13_cmp_plain_is_byte_order (lit "a.com") (lit "b.com")
    (by decide) (by decide) (by decide) (by decide), by decide⟩

/-! ## Order of instants -/

/-- Claim C14. `avahi_timeval_compare` is the lexicographic comparison on
(seconds, microseconds): it returns `-1` iff `a.sec < b.sec` or
(`a.sec = b.sec` and `a.usec < b.usec`), `1` iff the mirrored condition holds,
and `0` iff `a.sec = b.sec` and `a.usec = b.usec`. -/
theorem C14_timeval_compare_lexicographic (a b : GTimeVal) :
    (avahi_timeval_compare a b = -1 ↔
        a.tv_sec < b.tv_sec ∨ (a.tv_sec = b.tv_sec ∧ a.tv_usec < b.tv_usec))
    ∧ (avahi_timeval_compare a b = 1 ↔
        b.tv_sec < a.tv_sec ∨ (a.tv_sec = b.tv_sec ∧ b.tv_usec < a.tv_usec))
    ∧ (avahi_timeval_compare a b = 0 ↔ a.tv_sec = b.tv_sec ∧ a.tv_usec = b.tv_usec) := by
  unfold avahi_timeval_compare
  refine ⟨?_, ?_, ?_⟩ <;> split_ifs <;> constructor <;> intro h <;>
    first | omega | exact h.elim

/-- Claim C15. `avahi_timeval_compare` obeys the order laws: for all instants
`a`, `b`, `c`, `compare(a, b) = -compare(b, a)`, and `compare(a, b) <= 0`
together with `compare(b, c) <= 0` implies `compare(a, c) <= 0`. -/
theorem C15_timeval_compare_order_laws (a b c : GTimeVal) :
    avahi_timeval_compare a b = -avahi_timeval_compare b a
    ∧ (avahi_timeval_compare a b ≤ 0 → avahi_timeval_compare b c ≤ 0 →
        avahi_timeval_compare a c ≤ 0) := by
  unfold avahi_timeval_compare
  constructor
  · split_ifs <;> omega
  · intro h1 h2
    split_ifs at h1 h2 ⊢ <;> omega

/-- An instance of C15 on the instants (1 s, 5 µs), (1 s, 7 µs) and (2 s, 0 µs). -/
theorem C15_timeval_compare_order_laws_witness :
    avahi_timeval_compare ⟨1, 5⟩ ⟨1, 7⟩ = -avahi_timeval_compare ⟨1, 7⟩ ⟨1, 5⟩
    ∧ avahi_timeval_compare ⟨1, 5⟩ ⟨2, 0⟩ ≤ 0 :=
  ⟨(C15_timeval_compare_order_laws ⟨1, 5⟩ ⟨1, 7⟩ ⟨2, 0⟩).1,
   (C15_timeval_compare_order_laws ⟨1, 5⟩ ⟨1, 7⟩ ⟨2, 0⟩).2 (by decide) (by decide)⟩

/-- Claim C19. `avahi_timeval_diff` returns on every pair of instants with at
most one nested call: two levels of calls always yield a result, more levels
yield the same one, and when `compare(a, b) < 0` the swapped call has
`compare(b, a) > 0` and returns without calling again; otherwise the first call
returns at once. -/
theorem C19_timeval_diff_one_nested_call (a b : GTimeVal) (n : Nat) :
    (avahi_timeval_diff_fuel 2 a b).isSome = true
    ∧ avahi_timeval_diff_fuel (n + 2) a b = avahi_timeval_diff_fuel 2 a b
    ∧ (if avahi_timeval_compare a b < 0 then
        0 < avahi_timeval_compare b a
        ∧ (avahi_timeval_diff_fuel 1 b a).isSome = true
        ∧ avahi_timeval_diff_fuel 2 a b = avahi_timeval_diff_fuel 1 b a
      else (avahi_timeval_diff_fuel 1 a b).isSome = true) := by
  have hswap : avahi_timeval_compare a b < 0 → 0 < avahi_timeval_compare b a := by
    unfold avahi_timeval_compare
    intro h
    split_ifs at h ⊢ <;> omega
  by_cases h : avahi_timeval_compare a b < 0
  · have h' : ¬ avahi_timeval_compare b a < 0 := by have := hswap h; omega
    simp [avahi_timeval_diff_fuel, h, h', hswap h]
  · simp [avahi_timeval_diff_fuel, h]

/-! ## The hash: what it depends on -/

theorem strncpy_congr (p q : List gchar) (n : Nat) (h : p.take n = q.take n) :
    strncpy p n = strncpy q n := by
  unfold strncpy
  have hl : (p.take n).length = (q.take n).length := by rw [h]
  simp only [List.length_take] at hl
  have : n - p.length = n - q.length := by omega
  rw [h, this]

/-- Claim C16. `avahi_domain_hash` is defined for names of any length and
depends only on the first 255 bytes: names `p` and `q` whose first 255 bytes
agree (identical names when shorter) have the same hash. -/
theorem C16_hash_depends_on_first_255_bytes (p q : List gchar)
    (h : p.take 255 = q.take 255) : avahi_domain_hash p = avahi_domain_hash q := by
  unfold avahi_domain_hash
  rw [strncpy_congr p q 255 h]

/-- An instance of C16: two names of 256 bytes that differ in their last byte
only. -/
theorem C16_hash_depends_on_first_255_bytes_witness :
    avahi_domain_hash (List.replicate 255 97 ++ [98])
      = avahi_domain_hash (List.replicate 255 97 ++ [99]) :=
  C16_hash_depends_on_first_255_bytes (List.replicate 255 97 ++ [98])
    (List.replicate 255 97 ++ [99])
    (by rw [List.take_left' (List.length_replicate 255 97),
      List.take_left' (List.length_replicate 255 97)])

theorem getD_padded (p : List gchar) (i : Nat) (hi : i < 4) :
    ((p ++ [0, 0, 0, 0]).take 4).getD i 0 = p.getD i 0 := by
  simp only [List.getD_eq_getElem?_getD, List.getElem?_take, hi, if_true]
  by_cases h : i < p.length
  · rw [List.getElem?_append_left h]
  · rw [List.getElem?_append_right (by omega), List.getElem?_eq_none (l := p) (by omega)]
    have : i - p.length < 4 := by omega
    interval_cases (i - p.length) <;> rfl

/-- Claim C18. `avahi_domain_hash` looks at the first four bytes of the name
only: two names whose first four bytes agree, a shorter name being continued
with NUL bytes, have the same hash. -/
theorem C18_hash_reads_first_four_bytes (p q : List gchar)
    (h : (p ++ [0, 0, 0, 0]).take 4 = (q ++ [0, 0, 0, 0]).take 4) :
    avahi_domain_hash p = avahi_domain_hash q := by
  have key : ∀ i, i < 4 → p.getD i 0 = q.getD i 0 := by
    intro i hi
    rw [← getD_padded p i hi, ← getD_padded q i hi, h]
  rw [hash_eq_bytes, hash_eq_bytes, key 0 (by decide), key 1 (by decide), key 2 (by decide),
    key 3 (by decide)]

/-- An instance of C18: `"foo.example.com"` and `"foo.other.org"`. -/
theorem C18_hash_reads_first_four_bytes_witness :
    avahi_domain_hash (lit "foo.example.com") = avahi_domain_hash (lit "foo.other.org") :=
  C18_hash_reads_first_four_bytes (lit "foo.example.com") (lit "foo.other.org") (by decide)

/-! ## The name scan: reads behind the terminator -/

/-- Claim C17, the code at the failing input. On `"foo"` and `"foo\.bar"` (one
backslash byte), neither of which ends in a backslash, the scan reads the byte
behind the terminator of `"foo"`; so it does on the empty name and `"\x"`. -/
theorem C17_scan_reads_behind_terminator :
    avahi_domain_cmp (lit "foo") (lit "foo\\.bar") = .error .outOfBounds
    ∧ (lit "foo").getLast? ≠ some 92 ∧ (lit "foo\\.bar").getLast? ≠ some 92
    ∧ avahi_domain_cmp (lit "") (lit "\\x") = .error .outOfBounds := by
  decide

/-- Claim C4, the code at the failing input. On `"My\.Printer._ipp._tcp.local"`
(one backslash byte before the first dot) and `"My"`, neither of which ends in a
backslash, the scan returns no value in either argument order: it reads the
byte behind the terminator of `"My"`. -/
theorem C4_scan_returns_no_value_in_either_order :
    avahi_domain_cmp (lit "My\\.Printer._ipp._tcp.local") (lit "My") = .error .outOfBounds
    ∧ avahi_domain_cmp (lit "My") (lit "My\\.Printer._ipp._tcp.local") = .error .outOfBounds
    ∧ (lit "My\\.Printer._ipp._tcp.local").getLast? ≠ some 92
    ∧ (lit "My").getLast? ≠ some 92 := by
  decide

end Avahi
